import Mathlib

/-!
Verification of the two associative-storage engines of the MountainClimber
repository: the recursive "infinite" hash table (src/infinite_hash_table.py)
and the double-key hash table (src/double_key_table.py).

The embedding is shallow: Python objects become inductive values, in-place
mutation becomes functional update, and a raised exception becomes the
`Option.none` result of the corresponding operation.  Values are specialised
to `Nat` (the tables are generic in the value type and no claim depends on
the value type).  Keys are `String`, as in the default hash functions of the
source.
-/

namespace MountainClimber

/-! ## Infinite Hash Table (src/infinite_hash_table.py)

A table node holds a `level`, an `array` of `TABLE_SIZE = 27` slots and a
`count`.  A slot is either `None`, a `(key, value)` pair whose second
component is a plain value (a leaf), or a `(partial_key, sub_table)` pair
whose second component is another `InfiniteHashTable` (a child).  The source
distinguishes the two pair shapes with `isinstance`; here they are the two
non-empty constructors of `Slot`. -/

mutual

inductive IHT : Type where
  | mk (level : Nat) (array : SlotList) (count : Nat)
  deriving DecidableEq

inductive SlotList : Type where
  | nil
  | cons (s : Slot) (rest : SlotList)
  deriving DecidableEq

inductive Slot : Type where
  | none
  | leaf (k : String) (v : Nat)
  | child (pk : String) (t : IHT)
  deriving DecidableEq

end

def IHT.level : IHT → Nat
  | .mk lvl _ _ => lvl

def IHT.array : IHT → SlotList
  | .mk _ arr _ => arr

def IHT.count : IHT → Nat
  | .mk _ _ cnt => cnt

def SlotList.getD : SlotList → Nat → Slot
  | .nil, _ => .none
  | .cons s _, 0 => s
  | .cons _ r, n + 1 => r.getD n

def SlotList.set : SlotList → Nat → Slot → SlotList
  | .nil, _, _ => .nil
  | .cons _ r, 0, s' => .cons s' r
  | .cons s r, n + 1, s' => .cons s (r.set n s')

def SlotList.replicate : Nat → SlotList
  | 0 => .nil
  | n + 1 => .cons .none (SlotList.replicate n)

def SlotList.len : SlotList → Nat
  | .nil => 0
  | .cons _ r => 1 + r.len

/-- `InfiniteHashTable.TABLE_SIZE`. -/
def TABLE_SIZE : Nat := 27

/-- `InfiniteHashTable.__init__(level)`: a fresh node with 27 empty slots. -/
def emptyI (lvl : Nat) : IHT := .mk lvl (SlotList.replicate 27) 0

/-- `InfiniteHashTable.hash`: `ord(key[level]) % (TABLE_SIZE-1)` when the key
is long enough for this level, and the sentinel `TABLE_SIZE-1 = 26`
otherwise. -/
def hashI (lvl : Nat) (k : String) : Nat :=
  if lvl < k.length then (k.data.getD lvl ' ').toNat % (TABLE_SIZE - 1)
  else TABLE_SIZE - 1

mutual

/-- `InfiniteHashTable.__getitem__`: empty slot raises KeyError (`none`);
a child is entered recursively; a leaf returns its value with no key
check (its value field is never `None` in this model, so the final
`raise KeyError` line of the source is unreachable on a leaf). -/
def getI : IHT → String → Option Nat
  | .mk lvl arr _, k => getInList arr (hashI lvl k) k

def getInList : SlotList → Nat → String → Option Nat
  | .nil, _, _ => Option.none
  | .cons s _, 0, k => getInSlot s k
  | .cons _ r, n + 1, k => getInList r n k

def getInSlot : Slot → String → Option Nat
  | .none, _ => Option.none
  | .leaf _ v, _ => some v
  | .child _ c, k => getI c k

end

mutual

/-- `InfiniteHashTable.get_location`: like `get` but collecting the slot
indices, and checking key equality at the terminal leaf. -/
def getLocI : IHT → String → Option (List Nat)
  | .mk lvl arr _, k => locInList arr (hashI lvl k) (hashI lvl k) k

def locInList : SlotList → Nat → Nat → String → Option (List Nat)
  | .nil, _, _, _ => Option.none
  | .cons s _, 0, idx, k => locInSlot s idx k
  | .cons _ r, n + 1, idx, k => locInList r n idx k

def locInSlot : Slot → Nat → String → Option (List Nat)
  | .none, _, _ => Option.none
  | .leaf k' _, idx, k => if k' = k then some [idx] else Option.none
  | .child _ c, idx, k => (getLocI c k).map (idx :: ·)

end

/-- The collapse scan of `__delitem__`: the first non-`None` entry of the
child table's array (`for i in range(TABLE_SIZE): if ... is not None`). -/
def firstEntry : SlotList → Option Slot
  | .nil => Option.none
  | .cons .none r => firstEntry r
  | .cons s _ => some s

mutual

/-- `InfiniteHashTable.__delitem__`: an empty slot raises KeyError; a child
slot is deleted from recursively, the count is decremented, and if the
child is left with exactly one item it is collapsed to that item; a leaf
slot is cleared with no key check (faithful to the source). -/
def delI : IHT → String → Option IHT
  | .mk lvl arr cnt, k =>
    (delInList arr (hashI lvl k) k).map fun arr' => .mk lvl arr' (cnt - 1)

def delInList : SlotList → Nat → String → Option SlotList
  | .nil, _, _ => Option.none
  | .cons s r, 0, k => (delInSlot s k).map fun s' => .cons s' r
  | .cons s r, n + 1, k => (delInList r n k).map fun r' => .cons s r'

def delInSlot : Slot → String → Option Slot
  | .none, _ => Option.none
  | .leaf _ _, _ => some .none
  | .child pk c, k =>
    match delI c k with
    | Option.none => Option.none
    | some c' =>
      if c'.count = 1 then
        match firstEntry c'.array with
        | some s' => some s'
        | Option.none => some (.child pk c')
      else some (.child pk c')

end

/-- `InfiniteHashTable.__setitem__`, with a fuel argument: the source
recursion is not structurally bounded (splitting re-inserts into a fresh
deeper table and can recurse forever), so `none` is returned when `fuel`
runs out; a `some` result is a completed run of the source code. -/
def setF : Nat → IHT → String → Nat → Option IHT
  | 0, _, _, _ => Option.none
  | fuel + 1, .mk lvl arr cnt, k, v =>
    let idx := hashI lvl k
    match arr.getD idx with
    | .none => some (.mk lvl (arr.set idx (.leaf k v)) (cnt + 1))
    | .child pk c =>
      (setF fuel c k v).map fun c' => .mk lvl (arr.set idx (.child pk c')) (cnt + 1)
    | .leaf ek ev =>
      match setF fuel (emptyI (lvl + 1)) ek ev with
      | Option.none => Option.none
      | some s1 =>
        match setF fuel s1 k v with
        | Option.none => Option.none
        | some s2 => some (.mk lvl (arr.set idx (.child (ek.take (lvl + 1)) s2)) (cnt + 1))

/-- `InfiniteHashTable.__len__`. -/
def lenI (t : IHT) : Nat := t.count

/-- `InfiniteHashTable.__contains__`: defined from `get` in the source. -/
def containsI (t : IHT) (k : String) : Bool := (getI t k).isSome

mutual

/-- Specification-level observer: the keys of all leaves of the tree, in
slot order (not a function of the source; used to state claims). -/
def storedKeysI : IHT → List String
  | .mk _ arr _ => storedKeysL arr

def storedKeysL : SlotList → List String
  | .nil => []
  | .cons s r => storedKeysS s ++ storedKeysL r

def storedKeysS : Slot → List String
  | .none => []
  | .leaf k _ => [k]
  | .child _ c => storedKeysI c

end

mutual

/-- Structural invariant of the infinite hash table: every array has 27
slots, every `count` field equals the number of leaves reachable from its
node, and every slot that holds a child table has at least two leaves
reachable through it. -/
def wfI : IHT → Bool
  | .mk _ arr cnt => arr.len == 27 && cnt == (storedKeysL arr).length && wfL arr

def wfL : SlotList → Bool
  | .nil => true
  | .cons s r => wfS s && wfL r

def wfS : Slot → Bool
  | .child _ c => decide (2 ≤ (storedKeysI c).length) && wfI c
  | _ => true

end

mutual

/-- Size measure used for induction over the mutual tree structure. -/
def sizeI : IHT → Nat
  | .mk _ arr _ => 1 + sizeL arr

def sizeL : SlotList → Nat
  | .nil => 0
  | .cons s r => sizeS s + sizeL r

def sizeS : Slot → Nat
  | .none => 1
  | .leaf _ _ => 1
  | .child _ t => 1 + sizeI t

end

/-- The table obtained by inserting `"a" ↦ 1` into a fresh root:
`hash(0, "a") = 97 % 26 = 19`. -/
def ihtA : IHT := .mk 0 ((SlotList.replicate 27).set 19 (.leaf "a" 1)) 1

/-- A table at some level `lvl ≥ 1` whose only entry is the leaf
`("a", 1)` in the sentinel slot 26; the shape produced while splitting on a
repeated insertion of the key `"a"`. -/
def sentinelT (lvl : Nat) : IHT :=
  .mk lvl ((SlotList.replicate 27).set 26 (.leaf "a" 1)) 1

theorem hashI_of_len_le (lvl : Nat) (k : String) (h : k.length ≤ lvl) : hashI lvl k = 26 := by
  unfold hashI
  rw [if_neg (Nat.not_lt.mpr h)]
  rfl

theorem hashI_a_succ (lvl : Nat) : hashI (lvl + 1) "a" = 26 :=
  hashI_of_len_le (lvl + 1) "a" (by have h1 : "a".length = 1 := rfl; omega)

theorem setF_succ_empty (fuel lvl cnt : Nat) (arr : SlotList) (k : String) (v : Nat)
    (h : arr.getD (hashI lvl k) = .none) :
    setF (fuel + 1) (.mk lvl arr cnt) k v =
      some (.mk lvl (arr.set (hashI lvl k) (.leaf k v)) (cnt + 1)) := by
  simp only [setF, h]

theorem setF_succ_child (fuel lvl cnt : Nat) (arr : SlotList) (k pk : String) (v : Nat)
    (c : IHT) (h : arr.getD (hashI lvl k) = .child pk c) :
    setF (fuel + 1) (.mk lvl arr cnt) k v =
      (setF fuel c k v).map fun c' =>
        IHT.mk lvl (arr.set (hashI lvl k) (.child pk c')) (cnt + 1) := by
  simp only [setF, h]

theorem setF_succ_leaf (fuel lvl cnt : Nat) (arr : SlotList) (k ek : String) (v ev : Nat)
    (h : arr.getD (hashI lvl k) = .leaf ek ev) :
    setF (fuel + 1) (.mk lvl arr cnt) k v =
      match setF fuel (emptyI (lvl + 1)) ek ev with
      | Option.none => Option.none
      | some s1 =>
        match setF fuel s1 k v with
        | Option.none => Option.none
        | some s2 =>
          some (.mk lvl (arr.set (hashI lvl k) (.child (ek.take (lvl + 1)) s2)) (cnt + 1)) := by
  simp only [setF, h]

theorem setF_empty_sentinel (f lvl : Nat) :
    setF (f + 1) (emptyI (lvl + 1)) "a" 1 = some (sentinelT (lvl + 1)) := by
  have h : (SlotList.replicate 27).getD (hashI (lvl + 1) "a") = .none := by
    rw [hashI_a_succ]
    rfl
  rw [show emptyI (lvl + 1) = IHT.mk (lvl + 1) (SlotList.replicate 27) 0 from rfl]
  rw [setF_succ_empty f (lvl + 1) 0 (SlotList.replicate 27) "a" 1 h]
  rw [hashI_a_succ]
  rfl

theorem sentinel_diverges : ∀ f lvl, setF f (sentinelT (lvl + 1)) "a" 2 = Option.none := by
  intro f
  induction f with
  | zero => intro lvl; rfl
  | succ g ih =>
    intro lvl
    have h : ((SlotList.replicate 27).set 26 (Slot.leaf "a" 1)).getD (hashI (lvl + 1) "a") =
        .leaf "a" 1 := by
      rw [hashI_a_succ]
      rfl
    rw [show sentinelT (lvl + 1) =
      IHT.mk (lvl + 1) ((SlotList.replicate 27).set 26 (Slot.leaf "a" 1)) 1 from rfl]
    rw [setF_succ_leaf g (lvl + 1) 1 _ "a" "a" 2 1 h]
    cases g with
    | zero => rfl
    | succ g' =>
      simp only [setF_empty_sentinel g' (lvl + 1), ih (lvl + 1)]

theorem ihtA_reinsert_diverges : ∀ f, setF f ihtA "a" 2 = Option.none := by
  intro f
  cases f with
  | zero => rfl
  | succ g =>
    have h : ((SlotList.replicate 27).set 19 (Slot.leaf "a" 1)).getD (hashI 0 "a") =
        .leaf "a" 1 := by decide
    rw [show ihtA = IHT.mk 0 ((SlotList.replicate 27).set 19 (Slot.leaf "a" 1)) 1 from rfl]
    rw [setF_succ_leaf g 0 1 _ "a" "a" 2 1 h]
    cases g with
    | zero => rfl
    | succ g' =>
      simp only [setF_empty_sentinel g' 0, sentinel_diverges (g' + 1) 0]

/-! ### Bounds of the recursive hash and basic slot-array lemmas -/

theorem hashI_lt_27 (lvl : Nat) (k : String) : hashI lvl k < 27 := by
  unfold hashI TABLE_SIZE
  split <;> omega

theorem len_set : (l : SlotList) → (i : Nat) → (s : Slot) → (l.set i s).len = l.len
  | .nil, _, _ => rfl
  | .cons _ _, 0, _ => rfl
  | .cons s r, n + 1, s' => by simp [SlotList.set, SlotList.len, len_set r n s']

theorem wfI_iff (lvl : Nat) (arr : SlotList) (cnt : Nat) :
    wfI (.mk lvl arr cnt) = true ↔
      (arr.len = 27 ∧ cnt = (storedKeysL arr).length ∧ wfL arr = true) := by
  simp [wfI, Bool.and_eq_true, beq_iff_eq, and_assoc]

theorem wfS_child_iff (pk : String) (c : IHT) :
    wfS (.child pk c) = true ↔ (2 ≤ (storedKeysI c).length ∧ wfI c = true) := by
  simp [wfS, Bool.and_eq_true, decide_eq_true_eq]

theorem wfL_cons_iff (s : Slot) (r : SlotList) :
    wfL (.cons s r) = true ↔ (wfS s = true ∧ wfL r = true) := by
  simp [wfL, Bool.and_eq_true]

theorem wfL_set : (l : SlotList) → (i : Nat) → (s' : Slot) →
    wfL l = true → wfS s' = true → wfL (l.set i s') = true
  | .nil, _, _, _, _ => rfl
  | .cons s r, 0, s', h, hs' => by
    rw [wfL_cons_iff] at h
    simp [SlotList.set, wfL_cons_iff, h.2, hs']
  | .cons s r, n + 1, s', h, hs' => by
    rw [wfL_cons_iff] at h
    simp [SlotList.set, wfL_cons_iff, h.1, wfL_set r n s' h.2 hs']

theorem wfS_getD : (l : SlotList) → (i : Nat) → wfL l = true → wfS (l.getD i) = true
  | .nil, _, _ => rfl
  | .cons s r, 0, h => ((wfL_cons_iff s r).mp h).1
  | .cons s r, n + 1, h => wfS_getD r n ((wfL_cons_iff s r).mp h).2

theorem mem_keys_getD : (l : SlotList) → (i : Nat) → (x : String) →
    x ∈ storedKeysS (l.getD i) → x ∈ storedKeysL l
  | .nil, _, _, h => by simp [SlotList.getD, storedKeysS] at h
  | .cons s r, 0, x, h => by
    simp only [SlotList.getD] at h
    simp [storedKeysL, List.mem_append, h]
  | .cons s r, n + 1, x, h => by
    simp only [SlotList.getD] at h
    simp [storedKeysL, List.mem_append, mem_keys_getD r n x h]

theorem keys_set_eq : (l : SlotList) → (i : Nat) → (s' : Slot) → i < l.len →
    (storedKeysL (l.set i s') : Multiset String) + (storedKeysS (l.getD i) : Multiset String) =
      (storedKeysS s' : Multiset String) + (storedKeysL l : Multiset String)
  | .nil, i, s', h => by simp [SlotList.len] at h
  | .cons s r, 0, s', _ => by
    simp only [SlotList.set, SlotList.getD, storedKeysL, ← Multiset.coe_add]
    abel
  | .cons s r, n + 1, s', h => by
    have ih := keys_set_eq r n s' (by simp [SlotList.len] at h; omega)
    simp only [SlotList.set, SlotList.getD, storedKeysL, ← Multiset.coe_add]
    rw [add_assoc, ih]
    abel

theorem keysI_empty (lvl : Nat) : storedKeysI (emptyI lvl) = [] := rfl

theorem wfI_empty (lvl : Nat) : wfI (emptyI lvl) = true := rfl

theorem coe_nil_keys : (([] : List String) : Multiset String) = 0 := rfl

/-- A completed `__setitem__` run on a key not already stored preserves the
structural invariant and adds exactly that key to the stored multiset. -/
theorem setF_preserves :
    ∀ fuel t k v t', wfI t = true → k ∉ storedKeysI t → setF fuel t k v = some t' →
      wfI t' = true ∧
        (storedKeysI t' : Multiset String) = {k} + (storedKeysI t : Multiset String) := by
  intro fuel
  induction fuel with
  | zero => intro t k v t' _ _ h; simp [setF] at h
  | succ n ih =>
    rintro ⟨lvl, arr, cnt⟩ k v t' hwf hk hset
    obtain ⟨hlen, hcnt, hwfl⟩ := (wfI_iff lvl arr cnt).mp hwf
    simp only [storedKeysI] at hk
    have hidx : hashI lvl k < arr.len := by rw [hlen]; exact hashI_lt_27 lvl k
    cases hslot : arr.getD (hashI lvl k) with
    | none =>
      rw [setF_succ_empty n lvl cnt arr k v hslot] at hset
      injection hset with hset
      subst hset
      have hkeys : (storedKeysL (arr.set (hashI lvl k) (.leaf k v)) : Multiset String) =
          {k} + (storedKeysL arr : Multiset String) := by
        have h := keys_set_eq arr (hashI lvl k) (.leaf k v) hidx
        rw [hslot] at h
        rw [show storedKeysS Slot.none = ([] : List String) from rfl,
          show storedKeysS (Slot.leaf k v) = [k] from rfl, coe_nil_keys, add_zero,
          Multiset.coe_singleton] at h
        exact h
      have hcard := congrArg Multiset.card hkeys
      simp only [Multiset.coe_card, Multiset.card_add, Multiset.card_singleton] at hcard
      constructor
      · rw [wfI_iff]
        exact ⟨by rw [len_set, hlen], by omega, wfL_set _ _ _ hwfl rfl⟩
      · simpa [storedKeysI] using hkeys
    | child pk c =>
      rw [setF_succ_child n lvl cnt arr k pk v c hslot] at hset
      cases hc' : setF n c k v with
      | none => rw [hc'] at hset; simp at hset
      | some c' =>
        rw [hc'] at hset
        simp only [Option.map_some', Option.some.injEq] at hset
        subst hset
        have hcs : wfS (.child pk c) = true := by rw [← hslot]; exact wfS_getD arr _ hwfl
        obtain ⟨h2c, hwfc⟩ := (wfS_child_iff pk c).mp hcs
        have hkc : k ∉ storedKeysI c := by
          intro hm
          exact hk (mem_keys_getD arr (hashI lvl k) k (by rw [hslot]; simpa [storedKeysS] using hm))
        obtain ⟨hwfc', hkeysc'⟩ := ih c k v c' hwfc hkc hc'
        have h := keys_set_eq arr (hashI lvl k) (.child pk c') hidx
        rw [hslot] at h
        rw [show storedKeysS (Slot.child pk c) = storedKeysI c from rfl,
          show storedKeysS (Slot.child pk c') = storedKeysI c' from rfl, hkeysc',
          add_right_comm] at h
        have h2 := add_right_cancel h
        have hcard := congrArg Multiset.card h2
        simp only [Multiset.coe_card, Multiset.card_add, Multiset.card_singleton] at hcard
        have hcardc := congrArg Multiset.card hkeysc'
        simp only [Multiset.coe_card, Multiset.card_add, Multiset.card_singleton] at hcardc
        constructor
        · rw [wfI_iff]
          refine ⟨by rw [len_set, hlen], by omega, wfL_set _ _ _ hwfl ?_⟩
          rw [wfS_child_iff]
          exact ⟨by omega, hwfc'⟩
        · simpa [storedKeysI] using h2
    | leaf ek ev =>
      rw [setF_succ_leaf n lvl cnt arr k ek v ev hslot] at hset
      cases E1 : setF n (emptyI (lvl + 1)) ek ev with
      | none => simp only [E1] at hset; exact Option.noConfusion hset
      | some s1 =>
        simp only [E1] at hset
        cases E2 : setF n s1 k v with
        | none => simp only [E2] at hset; exact Option.noConfusion hset
        | some s2 =>
          simp only [E2, Option.some.injEq] at hset
          subst hset
          have hek : ek ∈ storedKeysL arr :=
            mem_keys_getD arr (hashI lvl k) ek (by rw [hslot]; simp [storedKeysS])
          have hne : k ≠ ek := fun he => hk (he ▸ hek)
          obtain ⟨hwfs1, hkeys1⟩ :=
            ih (emptyI (lvl + 1)) ek ev s1 (wfI_empty _) (by simp [keysI_empty]) E1
          rw [keysI_empty, coe_nil_keys, add_zero] at hkeys1
          have hks1 : k ∉ storedKeysI s1 := by
            intro hm
            have hmm : (k : String) ∈ (storedKeysI s1 : Multiset String) :=
              Multiset.mem_coe.mpr hm
            rw [hkeys1] at hmm
            exact hne (by simpa using hmm)
          obtain ⟨hwfs2, hkeys2⟩ := ih s1 k v s2 hwfs1 hks1 E2
          rw [hkeys1] at hkeys2
          have h := keys_set_eq arr (hashI lvl k) (.child (ek.take (lvl + 1)) s2) hidx
          rw [hslot] at h
          rw [show storedKeysS (Slot.leaf ek ev) = [ek] from rfl,
            show storedKeysS (Slot.child (ek.take (lvl + 1)) s2) = storedKeysI s2 from rfl,
            hkeys2, Multiset.coe_singleton, add_right_comm] at h
          have h2 := add_right_cancel h
          have hcard := congrArg Multiset.card h2
          simp only [Multiset.coe_card, Multiset.card_add, Multiset.card_singleton] at hcard
          have hcard2 := congrArg Multiset.card hkeys2
          simp only [Multiset.coe_card, Multiset.card_add, Multiset.card_singleton] at hcard2
          constructor
          · rw [wfI_iff]
            refine ⟨by rw [len_set, hlen], by omega, wfL_set _ _ _ hwfl ?_⟩
            rw [wfS_child_iff]
            exact ⟨by omega, hwfs2⟩
          · simpa [storedKeysI] using h2

theorem sizeI_pos : ∀ t : IHT, 1 ≤ sizeI t := by
  rintro ⟨lvl, arr, cnt⟩
  simp [sizeI]

theorem sizeS_pos : ∀ s : Slot, 1 ≤ sizeS s := by
  intro s
  cases s with
  | none => simp [sizeS]
  | leaf k v => simp [sizeS]
  | child pk c => simp [sizeS]

theorem firstEntry_single : (l : SlotList) → wfL l = true → (storedKeysL l).length = 1 →
    ∃ k0 v0, firstEntry l = some (.leaf k0 v0)
  | .nil, _, h => by simp [storedKeysL] at h
  | .cons .none r, hw, h => by
    simp only [storedKeysL, storedKeysS, List.nil_append] at h
    obtain ⟨k0, v0, hf⟩ := firstEntry_single r ((wfL_cons_iff _ r).mp hw).2 h
    exact ⟨k0, v0, by simpa [firstEntry] using hf⟩
  | .cons (.leaf k0 v0) r, _, _ => ⟨k0, v0, rfl⟩
  | .cons (.child pk c) r, hw, h => by
    obtain ⟨h2, _⟩ := (wfS_child_iff pk c).mp ((wfL_cons_iff _ r).mp hw).1
    simp only [storedKeysL, storedKeysS, List.length_append] at h
    omega

theorem delInList_spec (M : Nat)
    (IH : ∀ c k c', sizeI c ≤ M → wfI c = true → delI c k = some c' →
      wfI c' = true ∧ (storedKeysI c').length + 1 = (storedKeysI c).length) :
    (l : SlotList) → (i : Nat) → (k : String) → (l' : SlotList) →
    sizeL l ≤ M → wfL l = true → delInList l i k = some l' →
    wfL l' = true ∧ (storedKeysL l').length + 1 = (storedKeysL l).length ∧ l'.len = l.len
  | .nil, i, k, l', _, _, h => by simp [delInList] at h
  | .cons s r, 0, k, l', hsz, hw, h => by
    obtain ⟨hws, hwr⟩ := (wfL_cons_iff s r).mp hw
    simp only [delInList] at h
    cases hs : delInSlot s k with
    | none => rw [hs] at h; simp at h
    | some s' =>
      rw [hs] at h
      simp only [Option.map_some', Option.some.injEq] at h
      subst h
      have key : wfS s' = true ∧ (storedKeysS s').length + 1 = (storedKeysS s).length := by
        cases s with
        | none => simp [delInSlot] at hs
        | leaf k0 v0 =>
          simp only [delInSlot, Option.some.injEq] at hs
          subst hs
          simp [wfS, storedKeysS]
        | child pk c =>
          obtain ⟨h2, hwc⟩ := (wfS_child_iff pk c).mp hws
          simp only [delInSlot] at hs
          cases hdc : delI c k with
          | none => simp only [hdc] at hs; exact Option.noConfusion hs
          | some c' =>
            simp only [hdc] at hs
            have hszc : sizeI c ≤ M := by simp [sizeL, sizeS] at hsz; omega
            obtain ⟨hwc', hlc'⟩ := IH c k c' hszc hwc hdc
            obtain ⟨lv2, ar2, cn2⟩ := c'
            obtain ⟨hl2, hc2, hw2⟩ := (wfI_iff lv2 ar2 cn2).mp hwc'
            simp only [IHT.count, IHT.array] at hs
            simp only [storedKeysI] at hlc' hc2 ⊢
            by_cases hone : cn2 = 1
            · rw [if_pos hone] at hs
              have hcard : (storedKeysL ar2).length = 1 := by omega
              obtain ⟨k0, v0, hf⟩ := firstEntry_single ar2 hw2 hcard
              simp only [hf, Option.some.injEq] at hs
              subst hs
              simp only [wfS, storedKeysS, List.length_singleton, true_and]
              omega
            · rw [if_neg hone] at hs
              injection hs with hs
              subst hs
              refine ⟨(wfS_child_iff pk (.mk lv2 ar2 cn2)).mpr ⟨?_, hwc'⟩, ?_⟩
              · simp only [storedKeysI]
                omega
              · simp only [storedKeysS, storedKeysI]
                omega
      obtain ⟨hws', hlen'⟩ := key
      refine ⟨(wfL_cons_iff s' r).mpr ⟨hws', hwr⟩, ?_, ?_⟩
      · simp only [storedKeysL, List.length_append]
        omega
      · simp [SlotList.len]
  | .cons s r, n + 1, k, l', hsz, hw, h => by
    obtain ⟨hws, hwr⟩ := (wfL_cons_iff s r).mp hw
    simp only [delInList] at h
    cases hr : delInList r n k with
    | none => rw [hr] at h; simp at h
    | some r' =>
      rw [hr] at h
      simp only [Option.map_some', Option.some.injEq] at h
      subst h
      have hszr : sizeL r ≤ M := by
        have := sizeS_pos s
        simp [sizeL] at hsz
        omega
      obtain ⟨hwr', hlenr', hlr'⟩ := delInList_spec M IH r n k r' hszr hwr hr
      refine ⟨(wfL_cons_iff s r').mpr ⟨hws, hwr'⟩, ?_, ?_⟩
      · simp only [storedKeysL, List.length_append]
        omega
      · simp only [SlotList.len]
        omega

/-- A successful `__delitem__` run on a well-formed table preserves the
structural invariant and removes exactly one leaf. -/
theorem delI_preserves : ∀ N t k t', sizeI t ≤ N → wfI t = true → delI t k = some t' →
    wfI t' = true ∧ (storedKeysI t').length + 1 = (storedKeysI t).length := by
  intro N
  induction N with
  | zero =>
    intro t k t' hsz _ _
    have := sizeI_pos t
    omega
  | succ M ih =>
    rintro ⟨lvl, arr, cnt⟩ k t' hsz hwf hdel
    obtain ⟨hlen, hcnt, hwfl⟩ := (wfI_iff lvl arr cnt).mp hwf
    simp only [delI] at hdel
    cases hdl : delInList arr (hashI lvl k) k with
    | none => rw [hdl] at hdel; simp at hdel
    | some arr' =>
      rw [hdl] at hdel
      simp only [Option.map_some', Option.some.injEq] at hdel
      subst hdel
      have hszarr : sizeL arr ≤ M := by
        simp [sizeI] at hsz
        omega
      obtain ⟨hwfa, hlena, hla⟩ :=
        delInList_spec M (fun c k2 c2 hc1 hc2 hc3 => ih c k2 c2 hc1 hc2 hc3)
          arr (hashI lvl k) k arr' hszarr hwfl hdl
      refine ⟨?_, ?_⟩
      · rw [wfI_iff]
        exact ⟨by rw [hla, hlen], by omega, hwfa⟩
      · simp only [storedKeysI]
        omega

theorem getInList_none_loc (M : Nat)
    (IH : ∀ c k2, sizeI c ≤ M → getI c k2 = Option.none → getLocI c k2 = Option.none) :
    (l : SlotList) → (n : Nat) → (idx : Nat) → (k : String) →
    sizeL l ≤ M → getInList l n k = Option.none → locInList l n idx k = Option.none
  | .nil, _, _, _, _, _ => rfl
  | .cons s r, 0, idx, k, hsz, h => by
    simp only [getInList] at h
    simp only [locInList]
    cases s with
    | none => rfl
    | leaf k' v => simp [getInSlot] at h
    | child pk c =>
      simp only [getInSlot] at h
      simp only [locInSlot]
      have hszc : sizeI c ≤ M := by simp [sizeL, sizeS] at hsz; omega
      rw [IH c k hszc h]
      rfl
  | .cons s r, n + 1, idx, k, hsz, h => by
    simp only [getInList] at h
    simp only [locInList]
    have hszr : sizeL r ≤ M := by
      have := sizeS_pos s
      simp [sizeL] at hsz
      omega
    exact getInList_none_loc M IH r n idx k hszr h

/-- Whenever `__getitem__` raises KeyError, `get_location` raises KeyError
(the converse fails: `get_location` checks the terminal leaf key, `get` does
not). -/
theorem get_none_loc_none : ∀ N t k, sizeI t ≤ N →
    getI t k = Option.none → getLocI t k = Option.none := by
  intro N
  induction N with
  | zero =>
    intro t k h _
    have := sizeI_pos t
    omega
  | succ M ih =>
    rintro ⟨lvl, arr, cnt⟩ k hsz h
    simp only [getI] at h
    simp only [getLocI]
    have hszarr : sizeL arr ≤ M := by simp [sizeI] at hsz; omega
    exact getInList_none_loc M (fun c k2 h1 h2 => ih c k2 h1 h2)
      arr (hashI lvl k) (hashI lvl k) k hszarr h

/-- States of the infinite hash table reachable from a fresh root by
completed `set` operations on keys not currently stored (in particular by
any sequence of sets with pairwise-distinct keys) and by completed `delete`
operations. -/
inductive ReachI : IHT → Prop where
  | empty : ReachI (emptyI 0)
  | set (t t' : IHT) (k : String) (v fuel : Nat) :
      ReachI t → k ∉ storedKeysI t → setF fuel t k v = some t' → ReachI t'
  | del (t t' : IHT) (k : String) :
      ReachI t → delI t k = some t' → ReachI t'

theorem reach_wf : ∀ t, ReachI t → wfI t = true := by
  intro t h
  induction h with
  | empty => exact wfI_empty 0
  | set t t' k v fuel hr hk hset ih => exact (setF_preserves fuel t k v t' ih hk hset).1
  | del t t' k hr hdel ih => exact (delI_preserves (sizeI t) t k t' le_rfl ih hdel).1

section SanityChecks

example : setF 2 (emptyI 0) "a" 1 = some ihtA := by decide

example : getI ihtA "a" = some 1 := by decide

example : getI ihtA "G" = some 1 := by decide

example : getLocI ihtA "G" = Option.none := by decide

example : delI ihtA "G" = some (.mk 0 ((SlotList.replicate 27).set 19 .none) 0) := by decide

example : storedKeysI ihtA = ["a"] := by decide

example : wfI ihtA = true := by decide

end SanityChecks

/-! ## Double-Key Table (src/double_key_table.py)

The outer table maps a primary key to a `LinearProbeTable` of secondary
keys.  The `LinearProbeTable` class itself lives in
`data_structures/hash_table.py`, which is not part of this repository's
sources; the outer table only uses its constructor and its `array`,
`table_size`, `count`, `size_index`, `TABLE_SIZES`, `keys()` and `values()`
members, which are modelled from the spec below.  All hashing, probing,
writing and deleting on sub-table arrays is done by `double_key_table.py`
itself and is translated from that source. -/

/-- Modelled from the spec: the `LinearProbeTable` state (§3 Sub-Table):
`array` of optional (key, value) slots, `size_index` into the capacity
sequence `sizes` (the class attribute `TABLE_SIZES`, overridable by
`internal_sizes`), and `count` of occupied slots. -/
structure LPT where
  sizes : List Nat
  sizeIndex : Nat
  array : List (Option (String × Nat))
  count : Nat
  deriving DecidableEq

/-- Modelled from the spec: `LinearProbeTable()` construction — created
empty at the first capacity of the sequence. -/
def LPT.make (internalSizes : List Nat) : LPT :=
  ⟨internalSizes, 0, List.replicate (internalSizes.getD 0 0) Option.none, 0⟩

def LPT.tableSize (l : LPT) : Nat := l.array.length

/-- Modelled from the spec: `LinearProbeTable.keys()` — the stored keys in
slot order. -/
def LPT.keys (l : LPT) : List String := l.array.filterMap (fun s => s.map Prod.fst)

/-- Modelled from the spec: `LinearProbeTable.values()` — the stored values
in slot order. -/
def LPT.values (l : LPT) : List Nat := l.array.filterMap (fun s => s.map Prod.snd)

/-- `DoubleKeyTable` state: `sizes` is the instance's `TABLE_SIZES`
(overridable at construction), `internalSizes` the sequence installed on
the sub-table class by the `internal_sizes` argument, `table` the outer
array of optional (primary key, sub-table) slots, and `count` the counter
maintained by `__setitem__`/`__delitem__`. -/
structure DKT where
  sizes : List Nat
  internalSizes : List Nat
  sizeIndex : Nat
  table : List (Option (String × LPT))
  count : Nat
  deriving DecidableEq

/-- `DoubleKeyTable.TABLE_SIZES` default. -/
def defaultTableSizes : List Nat :=
  [5, 13, 29, 53, 97, 193, 389, 769, 1543, 3079, 6151, 12289, 24593, 49157,
   98317, 196613, 393241, 786433, 1572869]

/-- `DoubleKeyTable.HASH_BASE`. -/
def HASH_BASE : Nat := 31

/-- `DoubleKeyTable.__init__(sizes, internal_sizes)`. -/
def DKT.make (sizes internalSizes : List Nat) : DKT :=
  ⟨sizes, internalSizes, 0, List.replicate (sizes.getD 0 0) Option.none, 0⟩

def DKT.tableSize (t : DKT) : Nat := t.table.length

/-- `DoubleKeyTable.__len__`. -/
def DKT.len (t : DKT) : Nat := t.count

/-- The rolling hash shared by `hash1` and `hash2`:
`value = (ord(char) + a*value) % size` with `a = a*HASH_BASE % (size-1)`,
seeded with `a = 31415`. -/
def rollHashAux : List Char → Nat → Nat → Nat → Nat
  | [], _, _, value => value
  | ch :: rest, size, a, value =>
    rollHashAux rest size (a * HASH_BASE % (size - 1)) ((ch.toNat + a * value) % size)

def rollHash (size : Nat) (k : String) : Nat := rollHashAux k.data size 31415 0

/-- `DoubleKeyTable.hash1`: rolling hash modulo the outer capacity. -/
def DKT.hash1 (t : DKT) (k : String) : Nat := rollHash t.tableSize k

/-- `DoubleKeyTable.hash2`: rolling hash modulo the given sub-table's
capacity. -/
def hash2 (lpt : LPT) (k : String) : Nat := rollHash lpt.tableSize k

/-- Result of the inner probing loop of `_linear_probe` (`for x in
range(table_size)`): a slot was found, a KeyError was raised, or the loop
ran out (falling back to the outer loop). -/
inductive InnerRes where
  | found (j : Nat)
  | err
  | fall
  deriving DecidableEq

def innerProbe : Nat → List (Option (String × Nat)) → Nat → Nat → String → Bool → InnerRes
  | 0, _, _, _, _, _ => .fall
  | steps + 1, arr, size, pos2, key2, isInsert =>
    match arr.getD pos2 Option.none with
    | Option.none => if isInsert then .found pos2 else .err
    | some (k2, _) =>
      if k2 = key2 then .found pos2
      else innerProbe steps arr size ((pos2 + 1) % size) key2 isInsert

/-- Result of `_linear_probe`: a position pair, KeyError, or FullError. -/
inductive ProbeRes where
  | found (i j : Nat)
  | keyErr
  | fullErr
  deriving DecidableEq

/-- The outer probing loop of `_linear_probe` (`for _ in
range(len(self.table))`).  On an empty slot in insert mode the source
builds a throw-away `LinearProbeTable()` purely to compute `hash2`.  When
the inner loop of a matching slot falls through, the outer loop runs again
with `pos1` unchanged, exactly as in the source. -/
def outerProbe : Nat → DKT → Nat → String → String → Bool → ProbeRes
  | 0, _, _, _, _, isInsert => if isInsert then .fullErr else .keyErr
  | steps + 1, t, pos1, key1, key2, isInsert =>
    match t.table.getD pos1 Option.none with
    | Option.none =>
      if isInsert then .found pos1 (hash2 (LPT.make t.internalSizes) key2)
      else .keyErr
    | some (k1, lpt) =>
      if k1 = key1 then
        match innerProbe lpt.tableSize lpt.array lpt.tableSize (hash2 lpt key2) key2 isInsert with
        | .found j => .found pos1 j
        | .err => .keyErr
        | .fall => outerProbe steps t pos1 key1 key2 isInsert
      else outerProbe steps t ((pos1 + 1) % t.tableSize) key1 key2 isInsert

/-- `DoubleKeyTable._linear_probe`. -/
def linearProbe (t : DKT) (key1 key2 : String) (isInsert : Bool) : ProbeRes :=
  outerProbe t.tableSize t (t.hash1 key1) key1 key2 isInsert

/-- `DoubleKeyTable.__getitem__`. -/
def DKT.get (t : DKT) (key1 key2 : String) : Option Nat :=
  match linearProbe t key1 key2 false with
  | .found i j =>
    match t.table.getD i Option.none with
    | some (_, lpt) => (lpt.array.getD j Option.none).map Prod.snd
    | Option.none => Option.none
  | _ => Option.none

/-- `DoubleKeyTable.__contains__`. -/
def DKT.containsD (t : DKT) (key1 key2 : String) : Bool := (t.get key1 key2).isSome

/-- The slot-writing part of `__setitem__`, after `_linear_probe` returned
`(i1, i2)`: an empty outer slot gets a fresh sub-table and bumps the outer
count; otherwise the pair is written into the existing sub-table, whose
count is incremented unconditionally (also on an overwrite, as in the
source). -/
def writeAt (t : DKT) (i1 i2 : Nat) (key1 key2 : String) (v : Nat) : DKT :=
  match t.table.getD i1 Option.none with
  | Option.none =>
    let lpt0 := LPT.make t.internalSizes
    let lpt1 : LPT :=
      { lpt0 with array := lpt0.array.set i2 (some (key2, v)), count := lpt0.count + 1 }
    { t with table := t.table.set i1 (some (key1, lpt1)), count := t.count + 1 }
  | some (k1, lpt) =>
    let lpt1 : LPT :=
      { lpt with array := lpt.array.set i2 (some (key2, v)), count := lpt.count + 1 }
    { t with table := t.table.set i1 (some (k1, lpt1)) }

/-- The sub-table half of the rehash trigger of `__setitem__`:
`len(linear_probe_table) > linear_probe_table.table_size / 2`. -/
def setInnerOver (t : DKT) (i1 : Nat) : Bool :=
  match t.table.getD i1 Option.none with
  | some (_, lpt) => decide (2 * lpt.count > lpt.tableSize)
  | Option.none => false

/-- The outer half of the rehash trigger: `len(self) > self.table_size / 2`. -/
def outerOver (t : DKT) : Bool := decide (2 * t.count > t.tableSize)

mutual

/-- `DoubleKeyTable.__setitem__`, fuelled: `_rehash` re-enters `__setitem__`
so the recursion is bounded by fuel; `none` is a FullError or fuel
exhaustion. -/
def setD : Nat → DKT → String → String → Nat → Option DKT
  | 0, _, _, _, _ => Option.none
  | fuel + 1, t, key1, key2, v =>
    match linearProbe t key1 key2 true with
    | .found i1 i2 =>
      let t1 := writeAt t i1 i2 key1 key2 v
      if setInnerOver t1 i1 || outerOver t1 then rehashD fuel t1 else some t1
    | _ => Option.none

/-- `DoubleKeyTable._rehash`: the outer resize runs only when the outer
load exceeds half capacity (bumping `size_index` and returning early with
the old table if the size sequence is exhausted); a second pass then grows
any sub-table above half load. -/
def rehashD : Nat → DKT → Option DKT
  | 0, _ => Option.none
  | fuel + 1, t =>
    if outerOver t then
      if t.sizeIndex + 1 = t.sizes.length then some { t with sizeIndex := t.sizeIndex + 1 }
      else
        match reinsertTables fuel
            { t with sizeIndex := t.sizeIndex + 1,
                     table := List.replicate (t.sizes.getD (t.sizeIndex + 1) 0) Option.none,
                     count := 0 }
            t.table with
        | Option.none => Option.none
        | some t0 => growPass fuel t0 0 t0.tableSize
    else growPass fuel t 0 t.tableSize

/-- The reinsertion loop of the outer resize (`for item in old_table`). -/
def reinsertTables : Nat → DKT → List (Option (String × LPT)) → Option DKT
  | 0, _, _ => Option.none
  | _ + 1, acc, [] => some acc
  | fuel + 1, acc, Option.none :: rest => reinsertTables fuel acc rest
  | fuel + 1, acc, some (k1, lpt) :: rest =>
    match reinsertEntries fuel acc k1 lpt.array with
    | Option.none => Option.none
    | some acc' => reinsertTables fuel acc' rest

/-- Reinsertion of one sub-table's entries through `self[(key1, key2)] =
value`. -/
def reinsertEntries : Nat → DKT → String → List (Option (String × Nat)) → Option DKT
  | 0, _, _, _ => Option.none
  | _ + 1, acc, _, [] => some acc
  | fuel + 1, acc, k1, Option.none :: rest => reinsertEntries fuel acc k1 rest
  | fuel + 1, acc, k1, some (k2, v) :: rest =>
    match setD fuel acc k1 k2 v with
    | Option.none => Option.none
    | some acc' => reinsertEntries fuel acc' k1 rest

/-- The second pass of `_rehash` (`for x in range(self.table_size)`): grows
each sub-table above half load, returning early (with the bumped
`size_index` visible) if its size sequence is exhausted.  The iteration
count is fixed at entry, as `range` is in the source. -/
def growPass : Nat → DKT → Nat → Nat → Option DKT
  | 0, _, _, _ => Option.none
  | _ + 1, acc, _, 0 => some acc
  | fuel + 1, acc, x, remaining + 1 =>
    match acc.table.getD x Option.none with
    | Option.none => growPass fuel acc (x + 1) remaining
    | some (k1, lpt) =>
      if 2 * lpt.count > lpt.tableSize then
        if lpt.sizeIndex + 1 = lpt.sizes.length then
          some { acc with
            table := acc.table.set x (some (k1, { lpt with sizeIndex := lpt.sizeIndex + 1 })) }
        else
          let lpt2 : LPT :=
            { lpt with sizeIndex := lpt.sizeIndex + 1,
                       array := List.replicate (lpt.sizes.getD (lpt.sizeIndex + 1) 0) Option.none,
                       count := 0 }
          let acc1 : DKT := { acc with table := acc.table.set x (some (k1, lpt2)) }
          match reinsertEntries fuel acc1 k1 lpt.array with
          | Option.none => Option.none
          | some acc2 => growPass fuel acc2 (x + 1) remaining
      else growPass fuel acc (x + 1) remaining

end

/-- The reclustering loop of `__delitem__` (`while self.table[int1] is not
None`), fuelled because the walk is not structurally bounded.  Each
occupied slot after the cleared one is removed and re-inserted through
`_linear_probe(key1_, key1_, True)` — the source passes the primary key as
the secondary-key argument there. -/
def repairLoop : Nat → DKT → Nat → Option DKT
  | 0, _, _ => Option.none
  | fuel + 1, t, j =>
    match t.table.getD j Option.none with
    | Option.none => some t
    | some (k1, lpt) =>
      let t0 : DKT := { t with table := t.table.set j Option.none }
      match linearProbe t0 k1 k1 true with
      | .found i1 _ =>
        repairLoop fuel { t0 with table := t0.table.set i1 (some (k1, lpt)) }
          ((j + 1) % t0.tableSize)
      | _ => Option.none

/-- `DoubleKeyTable.__delitem__`: when the sub-table holds exactly one key
the whole outer slot is cleared and the following cluster re-inserted;
otherwise the inner slot is cleared directly, with no inner cluster
repair (faithful to the source, which does not call the sub-table's own
delete). -/
def delD (fuel : Nat) (t : DKT) (key1 key2 : String) : Option DKT :=
  match linearProbe t key1 key2 false with
  | .found i1 i2 =>
    match t.table.getD i1 Option.none with
    | some (k1s, lpt) =>
      if lpt.keys.length = 1 then
        let t0 : DKT := { t with table := t.table.set i1 Option.none, count := t.count - 1 }
        repairLoop fuel t0 ((i1 + 1) % t0.tableSize)
      else
        some { t with table := t.table.set i1 (some (k1s,
          { lpt with array := lpt.array.set i2 Option.none, count := lpt.count - 1 })) }
    | Option.none => Option.none
  | _ => Option.none

/-- `DoubleKeyTable.keys(None)`: all top-level keys in slot order. -/
def DKT.keysAll (t : DKT) : List String := t.table.filterMap (fun s => s.map Prod.fst)

def keysForAux : List (Option (String × LPT)) → String → List String
  | [], _ => []
  | Option.none :: rest, k => keysForAux rest k
  | some (k1, lpt) :: rest, k => if k1 = k then lpt.keys else keysForAux rest k

/-- `DoubleKeyTable.keys(k)`: scans the outer array for the slot holding
`k` and returns that sub-table's keys ([] if `k` is not found). -/
def DKT.keysFor (t : DKT) (k : String) : List String := keysForAux t.table k

/-- `DoubleKeyTable.values(None)`: all values, in outer-then-inner slot
order. -/
def DKT.valuesAll (t : DKT) : List Nat :=
  t.table.foldr
    (fun s acc => match s with
      | some (_, lpt) => lpt.values ++ acc
      | Option.none => acc) []

/-- `DoubleKeyTable.values(k)`: the source reads
`self.table[self.hash1(key)]` directly, with no probing and no key check;
a `None` home slot crashes in Python (modelled as `none`). -/
def DKT.valuesFor (t : DKT) (k : String) : Option (List Nat) :=
  match t.table.getD (t.hash1 k) Option.none with
  | some (_, lpt) => some lpt.values
  | Option.none => Option.none

def findSubAux : List (Option (String × LPT)) → String → Option LPT
  | [], _ => Option.none
  | Option.none :: rest, k => findSubAux rest k
  | some (k1, lpt) :: rest, k => if k1 = k then some lpt else findSubAux rest k

/-- Specification-level observer: the sub-table actually stored under a
primary key, found by scanning the outer array. -/
def DKT.findSub (t : DKT) (k : String) : Option LPT := findSubAux t.table k

/-- Specification-level observer: every (primary, secondary) pair stored in
the structure, in slot order. -/
def DKT.storedPairs (t : DKT) : List (String × String) :=
  t.table.foldr
    (fun s acc => match s with
      | some (k1, lpt) => (lpt.keys.map (fun k2 => (k1, k2))) ++ acc
      | Option.none => acc) []

/-- Empty double-key table with outer sizes [5, 13] and sub-table sizes
[5]. -/
def dkt0 : DKT := DKT.make [5, 13] [5]

def dkt1 : DKT := (setD 10 dkt0 "p" "a" 1).getD dkt0

def dkt2 : DKT := (setD 10 dkt1 "p" "f" 2).getD dkt0

def dkt3 : DKT := (delD 10 dkt2 "p" "a").getD dkt0

def dkt7a : DKT := (setD 10 dkt0 "a" "x" 1).getD dkt0

def dkt7b : DKT := (setD 10 dkt7a "f" "y" 2).getD dkt0

/-- Empty double-key table with outer sizes [5, 13] and sub-table sizes
[3, 7]: the first insertion under a primary key fits, the second pushes the
sub-table over half load. -/
def dkt6 : DKT := DKT.make [5, 13] [3, 7]

def dkt6a : DKT := (setD 10 dkt6 "p" "a" 1).getD dkt6

def w6 : DKT := writeAt dkt6a 2 2 "p" "b" 2

def dkt6b : DKT := (setD 10 dkt6a "p" "b" 2).getD dkt6

section DKTSanityChecks

example : (setD 10 dkt0 "p" "a" 1).isSome = true := by decide

example : dkt2.get "p" "a" = some 1 ∧ dkt2.get "p" "f" = some 2 := by decide

example : DKT.len dkt2 = 1 ∧ dkt2.storedPairs = [("p", "a"), ("p", "f")] := by decide

example : (delD 10 dkt2 "p" "a").isSome = true := by decide

example : dkt3.get "p" "a" = Option.none ∧ dkt3.get "p" "f" = Option.none := by decide

example : dkt7b.get "f" "y" = some 2 := by decide

example : dkt7b.valuesFor "f" = some [1] := by decide

example : (dkt7b.findSub "f").map LPT.values = some [2] := by decide

example : dkt7b.keysFor "f" = ["y"] := by decide

example : linearProbe dkt6a "p" "b" true = .found 2 2 := by decide

example : setInnerOver w6 2 = true ∧ outerOver w6 = false := by decide

example : setD 10 dkt6a "p" "b" 2 = rehashD 9 w6 := by decide

example : (dkt6b.findSub "p").map LPT.tableSize = some 7 := by decide

example : dkt6b.get "p" "a" = some 1 ∧ dkt6b.get "p" "b" = some 2 := by decide

example : 2 * dkt6b.count ≤ dkt6b.tableSize ∧ 2 * dkt6a.count ≤ dkt6a.tableSize := by decide

end DKTSanityChecks

/-- One step of `__setitem__` after a successful probe: the pair is written,
and `_rehash` is invoked exactly when, after the write, the affected
sub-table's load or the outer load exceeds half the respective capacity. -/
theorem setD_trigger_shape (fuel : Nat) (t : DKT) (k1 k2 : String) (v : Nat)
    (i1 i2 : Nat) (h : linearProbe t k1 k2 true = .found i1 i2) :
    setD (fuel + 1) t k1 k2 v =
      (if setInnerOver (writeAt t i1 i2 k1 k2 v) i1 || outerOver (writeAt t i1 i2 k1 k2 v)
        then rehashD fuel (writeAt t i1 i2 k1 k2 v)
        else some (writeAt t i1 i2 k1 k2 v)) := by
  simp only [setD, h]

/-! ## Claims -/

/-- C1: the round-trip property fails on the code: setting an
already-present key in the Infinite Hash Table never returns.  After
`set("a", 1)` produces `ihtA`, a second `set("a", 2)` splits the leaf into
an endless chain of sentinel-slot sub-tables: `setF` returns `none` (fuel
exhaustion) for every fuel, i.e. the source recursion diverges instead of
overwriting and serving the new value to `get`. -/
theorem c1_set_get_round_trip_fails :
    setF 2 (emptyI 0) "a" 1 = some ihtA ∧ getI ihtA "a" = some 1 ∧
      (∀ fuel, setF fuel ihtA "a" 2 = Option.none) :=
  ⟨by decide, by decide, ihtA_reinsert_diverges⟩

/-- C2: deletion completeness fails on the Double-Key Table: with sub-table
capacity 5, the secondary keys "a" and "f" collide under `hash2`, so "f"
is stored one probe step after "a"; `delete(("p","a"))` clears the inner
slot with no inner cluster repair, after which `get(("p","f"))` raises
KeyError even though the pair was never deleted. -/
theorem c2_delete_orphans_surviving_key :
    (setD 10 dkt0 "p" "a" 1).isSome = true ∧ (setD 10 dkt1 "p" "f" 2).isSome = true ∧
      dkt2.get "p" "f" = some 2 ∧ (delD 10 dkt2 "p" "a").isSome = true ∧
      dkt3.get "p" "a" = Option.none ∧ dkt3.get "p" "f" = Option.none := by
  decide

/-- C3: the count invariant fails on the code: after storing the two
distinct pairs ("p","a") and ("p","f"), both retrievable, `len()` returns
1 — the source counts occupied outer slots (distinct primary keys), not
(primary, secondary) pairs. -/
theorem c3_len_counts_primaries_not_pairs :
    DKT.len dkt2 = 1 ∧ dkt2.storedPairs = [("p", "a"), ("p", "f")] ∧
      dkt2.get "p" "a" = some 1 ∧ dkt2.get "p" "f" = some 2 := by
  decide

/-- C4: `get` on an absent key does not always fail NotFound: the key "G"
is not stored in `ihtA` (which holds only "a"), but hashes to the same slot
as "a" at level 0, and `__getitem__` returns the leaf's value 1 without
checking key equality. -/
theorem c4_get_returns_value_for_absent_key :
    ("G" ∉ storedKeysI ihtA) ∧ getI ihtA "G" = some 1 := by
  decide

/-- C5: failed-delete atomicity fails on the Infinite Hash Table: deleting
the absent key "G" from `ihtA` does not raise KeyError; it clears the leaf
holding the colliding key "a", leaving the table empty, so the stored key
"a" is destroyed by a delete that should have failed. -/
theorem c5_delete_absent_key_destroys_entry :
    ("G" ∉ storedKeysI ihtA) ∧ (delI ihtA "G").isSome = true ∧
      (delI ihtA "G").map storedKeysI = some [] ∧
      (delI ihtA "G").map (fun t => getI t "a") = some Option.none := by
  decide

/-- C6 counterexample: the rehash is not triggered exactly by the outer
load.  With sub-table sizes [3, 7], inserting a second secondary key under
the primary "p" pushes the sub-table (not the outer table) over half load:
the probe returns (2,2), the written state `w6` satisfies the inner
condition but not the outer one, `__setitem__` hands `w6` to `_rehash`, and
the result shows the sub-table grown from capacity 3 to 7 while the outer
load never exceeded half capacity. -/
theorem c6_counterexample_inner_load_triggers :
    linearProbe dkt6a "p" "b" true = .found 2 2 ∧
      setInnerOver w6 2 = true ∧ outerOver w6 = false ∧
      setD 10 dkt6a "p" "b" 2 = rehashD 9 w6 ∧
      (dkt6a.findSub "p").map LPT.tableSize = some 3 ∧
      (dkt6b.findSub "p").map LPT.tableSize = some 7 ∧
      2 * w6.count ≤ w6.tableSize ∧ 2 * dkt6b.count ≤ dkt6b.tableSize := by
  decide

/-- C6 amended: after every successful insertion probe, `__setitem__` calls
`_rehash` exactly when the affected sub-table's load or the outer load
exceeds half the respective capacity (so outer-load overflow still always
triggers it); sub-table growth is performed by `_rehash`'s second pass,
driven from the outer `set`, never by a sub-table-level `set`, which the
outer code bypasses by writing into sub-table arrays directly. -/
theorem c6_rehash_trigger_condition (fuel : Nat) (t : DKT) (k1 k2 : String) (v : Nat)
    (i1 i2 : Nat) (h : linearProbe t k1 k2 true = .found i1 i2) :
    setD (fuel + 1) t k1 k2 v =
      (if setInnerOver (writeAt t i1 i2 k1 k2 v) i1 || outerOver (writeAt t i1 i2 k1 k2 v)
        then rehashD fuel (writeAt t i1 i2 k1 k2 v)
        else some (writeAt t i1 i2 k1 k2 v)) ∧
    (outerOver (writeAt t i1 i2 k1 k2 v) = true →
      setD (fuel + 1) t k1 k2 v = rehashD fuel (writeAt t i1 i2 k1 k2 v)) := by
  refine ⟨setD_trigger_shape fuel t k1 k2 v i1 i2 h, ?_⟩
  intro hov
  rw [setD_trigger_shape fuel t k1 k2 v i1 i2 h, hov, Bool.or_true, if_pos rfl]

theorem c6_rehash_trigger_condition_witness :
    linearProbe dkt6a "p" "b" true = ProbeRes.found 2 2 ∧
      setD 10 dkt6a "p" "b" 2 =
        (if setInnerOver w6 2 || outerOver w6 then rehashD 9 w6 else some w6) :=
  ⟨by decide, (c6_rehash_trigger_condition 9 dkt6a "p" "b" 2 2 2 (by decide)).1⟩

/-- C7: filtered `values` fails for a displaced primary key: "a" and "f"
both hash to outer slot 2; "f" is probed to slot 3, and its own sub-table
holds exactly the value 2, but `values("f")` reads the home slot without
probing and returns the values [1] of primary "a"'s sub-table (`keys("f")`,
which scans, is correct). -/
theorem c7_values_ignores_probing :
    dkt7b.get "f" "y" = some 2 ∧
      (dkt7b.findSub "f").map LPT.values = some [2] ∧
      dkt7b.valuesFor "f" = some [1] ∧
      dkt7b.keysFor "f" = ["y"] := by
  decide

/-- C8: the collapse invariant holds: in every table reachable by completed
sets of not-currently-stored keys (hence any pairwise-distinct key
sequence) and completed deletes, the structure is well-formed — every
`count` equals the number of reachable leaves — and every slot holding a
child table has at least 2 leaves reachable through it (a child reduced to
one leaf is collapsed into its parent slot by `__delitem__`). -/
theorem c8_collapse_invariant : ∀ t, ReachI t → wfI t = true ∧
    ∀ i pk c, t.array.getD i = Slot.child pk c → 2 ≤ (storedKeysI c).length := by
  intro t h
  have hw := reach_wf t h
  refine ⟨hw, ?_⟩
  intro i pk c hgd
  obtain ⟨lvl, arr, cnt⟩ := t
  obtain ⟨_, _, hwl⟩ := (wfI_iff lvl arr cnt).mp hw
  have hws := wfS_getD arr i hwl
  simp only [IHT.array] at hgd
  rw [hgd] at hws
  exact ((wfS_child_iff pk c).mp hws).1

theorem c8_collapse_invariant_witness : wfI ihtA = true :=
  (c8_collapse_invariant ihtA
    (ReachI.set (emptyI 0) ihtA "a" 1 2 ReachI.empty (by decide) (by decide))).1

/-- C9 counterexample: `get_location` does not fail under exactly the same
conditions as `get`: on `ihtA` (holding only "a"), the absent key "G"
reaches the terminal leaf of "a"; `get` wrongly succeeds with 1 while
`get_location` checks the leaf key and raises KeyError. -/
theorem c9_counterexample_loc_stricter_than_get :
    getI ihtA "G" = some 1 ∧ getLocI ihtA "G" = Option.none := by
  decide

/-- C9 amended: whenever `get` fails NotFound, `get_location` fails
NotFound as well (the failure conditions are not equal: `get_location`
additionally fails on keys whose hash path ends at a leaf storing a
different key, where `get` erroneously succeeds). -/
theorem c9_loc_fails_when_get_fails :
    ∀ t k, getI t k = Option.none → getLocI t k = Option.none :=
  fun t k h => get_none_loc_none (sizeI t) t k le_rfl h

theorem c9_loc_fails_when_get_fails_witness :
    getI (emptyI 0) "q" = Option.none ∧ getLocI (emptyI 0) "q" = Option.none :=
  ⟨by decide, c9_loc_fails_when_get_fails (emptyI 0) "q" (by decide)⟩

/-- C10: `hash` is total with range inside [0, 26] ⊆ [0, 27): keys with
length at most the node's level map to the sentinel 26 = TABLE_SIZE-1, all
others to `ord(key[level]) % 26 < 26`; arrays are created with 27 slots and
slot updates preserve the length, so hashed accesses stay in bounds. -/
theorem c10_hash_total_in_range :
    (∀ lvl k, hashI lvl k < 27) ∧
    (∀ lvl (k : String), k.length ≤ lvl → hashI lvl k = 26) ∧
    (∀ lvl (k : String), lvl < k.length →
        hashI lvl k = (k.data.getD lvl ' ').toNat % 26 ∧ hashI lvl k < 26) ∧
    (∀ lvl, (emptyI lvl).array.len = 27) ∧
    (∀ (l : SlotList) i s, (l.set i s).len = l.len) := by
  refine ⟨hashI_lt_27, hashI_of_len_le, ?_, fun lvl => rfl, len_set⟩
  intro lvl k h
  unfold hashI TABLE_SIZE
  rw [if_pos h]
  exact ⟨rfl, Nat.mod_lt _ (by omega)⟩

theorem c10_hash_total_in_range_witness :
    ("ab".length ≤ 5 ∧ hashI 5 "ab" = 26) ∧ (0 < "ab".length ∧ hashI 0 "ab" < 26) :=
  ⟨⟨by decide, c10_hash_total_in_range.2.1 5 "ab" (by decide)⟩,
    ⟨by decide, (c10_hash_total_in_range.2.2.1 0 "ab" (by decide)).2⟩⟩

end MountainClimber
